import Mathlib

/-!
# Verification of the w25519 core (Wei25519 affine arithmetic and DH surface)

This file gives a shallow embedding of the two source files of the repository,
`curve25519-dalek/src/weierstrass.rs` and `w25519/src/w25519.rs`, and proves
or refutes the specification claims about them.

Byte arrays `[u8; 32]` are embedded as their little-endian natural-number
value (an injective map on actual byte arrays, whose values are below 2^256;
the all-zero array maps to 0).  Field elements are naturals below
p = 2^255 - 19.  The external field library (`FieldElement`) and scalar
library are not part: their operations are modelled from the spec, as noted
in the corresponding doc comments.
-/

set_option maxRecDepth 16000

namespace W25519

/-- The field prime of Curve25519: p = 2^255 - 19. -/
def p : ℕ := 2 ^ 255 - 19

/-- Little-endian value of a list of bytes, as used for every `[u8; 32]`
constant appearing in the source. -/
def leVal (l : List ℕ) : ℕ := l.foldr (fun b acc => b + 256 * acc) 0

/-- The `WEI25519_A` constant bytes from the source (the Weierstrass `a`
parameter of Wei25519). -/
def WEI25519_A_BYTES : List ℕ :=
  [0x44, 0xa1, 0x14, 0x49, 0x98, 0xaa, 0xaa, 0xaa, 0xaa, 0xaa, 0xaa, 0xaa,
   0xaa, 0xaa, 0xaa, 0xaa, 0xaa, 0xaa, 0xaa, 0xaa, 0xaa, 0xaa, 0xaa, 0xaa,
   0xaa, 0xaa, 0xaa, 0xaa, 0xaa, 0xaa, 0xaa, 0x2a]

/-- Little-endian value of `WEI25519_A`. -/
def WEI25519_A : ℕ := leVal WEI25519_A_BYTES

/-- The `DELTA` constant bytes from the source (δ = A_M/3 as a field
element). -/
def DELTA_BYTES : List ℕ :=
  [0x51, 0x24, 0xad, 0xaa, 0xaa, 0xaa, 0xaa, 0xaa, 0xaa, 0xaa, 0xaa, 0xaa,
   0xaa, 0xaa, 0xaa, 0xaa, 0xaa, 0xaa, 0xaa, 0xaa, 0xaa, 0xaa, 0xaa, 0xaa,
   0xaa, 0xaa, 0xaa, 0xaa, 0xaa, 0xaa, 0xaa, 0x2a]

/-- Little-endian value of `DELTA`. -/
def DELTA : ℕ := leVal DELTA_BYTES

/-- u-coordinate of the X25519 base point (the byte array `9, 0, ..., 0`). -/
def X25519_BASEPOINT_U : ℕ := 9

/-- v-coordinate bytes of the X25519 base point, from the source. -/
def X25519_BASEPOINT_V_BYTES : List ℕ :=
  [0xd9, 0xd3, 0xce, 0x7e, 0xa2, 0xc5, 0xe9, 0x29, 0xb2, 0x61, 0x7c, 0x6d,
   0x7e, 0x4d, 0x3d, 0x92, 0x4c, 0xd1, 0x48, 0x77, 0x2c, 0xdd, 0x1e, 0xe0,
   0xb4, 0x86, 0xa0, 0xb8, 0xa1, 0x19, 0xae, 0x20]

/-- Little-endian value of `X25519_BASEPOINT_V`. -/
def X25519_BASEPOINT_V : ℕ := leVal X25519_BASEPOINT_V_BYTES

/-- x-coordinate bytes of the Wei25519 base point, from the source. -/
def WEI25519_G_X_BYTES : List ℕ :=
  [0x5a, 0x24, 0xad, 0xaa, 0xaa, 0xaa, 0xaa, 0xaa, 0xaa, 0xaa, 0xaa, 0xaa,
   0xaa, 0xaa, 0xaa, 0xaa, 0xaa, 0xaa, 0xaa, 0xaa, 0xaa, 0xaa, 0xaa, 0xaa,
   0xaa, 0xaa, 0xaa, 0xaa, 0xaa, 0xaa, 0xaa, 0x2a]

/-- Little-endian value of `WEI25519_G_X`. -/
def WEI25519_G_X : ℕ := leVal WEI25519_G_X_BYTES

/-- y-coordinate of the Wei25519 base point (equal to the X25519 base point
v-coordinate in the source). -/
def WEI25519_G_Y : ℕ := X25519_BASEPOINT_V

/-- Modelled from the spec: the field adapter decode `from_bytes`
(§4.1, "decode little-endian, reduce mod p").  Bit 255 of the byte array is
ignored on decode, the convention fixed by the spec's §8.4 example (the
all-`0xFF` array decodes to 18 = (2^255 - 1) mod p), matching the underlying
field library. -/
def fe_from_bytes (b : ℕ) : ℕ := b % 2 ^ 255 % p

/-- Modelled from the spec: field addition; `to_bytes` of the result is its
canonical reduced value. -/
def fe_add (a b : ℕ) : ℕ := (a + b) % p

/-- Modelled from the spec: field subtraction. -/
def fe_sub (a b : ℕ) : ℕ := (a + (p - b % p)) % p

/-- Modelled from the spec: field multiplication. -/
def fe_mul (a b : ℕ) : ℕ := a * b % p

/-- Modelled from the spec: field squaring. -/
def fe_square (a : ℕ) : ℕ := a * a % p

/-- Binary modular exponentiation with an explicit structural fuel
(fuel bounds the bit length of the exponent). -/
def powModAux : ℕ → ℕ → ℕ → ℕ → ℕ
  | 0, _, _, n => 1 % n
  | f + 1, a, k, n =>
      if k = 0 then 1 % n
      else
        let r := powModAux f (a * a % n) (k / 2) n
        if k % 2 = 1 then r * (a % n) % n else r

/-- Binary modular exponentiation, for exponents below 2^256. -/
def powMod (a k n : ℕ) : ℕ := powModAux 256 a k n

/-- Modelled from the spec: constant-time field inversion by Fermat
exponentiation, with invert(0) = 0 (§4.1). -/
def fe_invert (a : ℕ) : ℕ := powMod (a % p) (p - 2) p

/-- The affine Weierstrass point of the source: two 32-byte coordinate
arrays, embedded as their little-endian values. -/
structure WeierstrassPoint where
  x : ℕ
  y : ℕ
deriving DecidableEq

/-- `WeierstrassPoint::default`, the identity encoding (0, 0). -/
def identity : WeierstrassPoint := ⟨0, 0⟩

/-- `WeierstrassPoint::x_ct_eq`: constant-time equality of the decoded
x-coordinates. -/
def x_ct_eq (P Q : WeierstrassPoint) : Bool :=
  fe_from_bytes P.x == fe_from_bytes Q.x

/-- `WeierstrassPoint::y_ct_eq`: constant-time equality of the decoded
y-coordinates. -/
def y_ct_eq (P Q : WeierstrassPoint) : Bool :=
  fe_from_bytes P.y == fe_from_bytes Q.y

/-- `WeierstrassPoint::at_infinity`: both coordinates decode to 0. -/
def at_infinity (P : WeierstrassPoint) : Bool :=
  x_ct_eq P identity && y_ct_eq P identity

/-- The `ConstantTimeEq` impl for `WeierstrassPoint`: equality of both
decoded coordinate pairs.  The `PartialEq` impl is `ct_eq` unwrapped. -/
def ct_eq (P Q : WeierstrassPoint) : Bool :=
  x_ct_eq P Q && y_ct_eq P Q

/-- The `PartialEq` impl for `WeierstrassPoint`: the ct_eq choice byte
compared with 1, which for a 0/1 choice is the choice itself. -/
def eq_points (P Q : WeierstrassPoint) : Bool := ct_eq P Q

/-- The `ConditionallySelectable` impl for `WeierstrassPoint`: selects the
decoded coordinates of `B` when the choice is set, of `A` otherwise, and
re-encodes them. -/
def conditional_select (A B : WeierstrassPoint) (c : Bool) : WeierstrassPoint :=
  ⟨if c then fe_from_bytes B.x else fe_from_bytes A.x,
   if c then fe_from_bytes B.y else fe_from_bytes A.y⟩

/-- `WeierstrassPoint::from_montgomery`: the byte-level check `u == [0; 32]`
embeds as the value check `u = 0`. -/
def from_montgomery (u v : ℕ) : WeierstrassPoint :=
  if u = 0 then ⟨0, v⟩
  else ⟨fe_add (fe_from_bytes u) (fe_from_bytes DELTA), v⟩

/-- `WeierstrassPoint::into_montgomery`: the byte-level check
`self.x == [0; 32]` embeds as the value check `P.x = 0`. -/
def into_montgomery (P : WeierstrassPoint) : ℕ × ℕ :=
  if P.x = 0 then (P.x, P.y)
  else (fe_sub (fe_from_bytes P.x) (fe_from_bytes DELTA), P.y)

/-- `WeierstrassPoint::into_montgomery_compressed`: the u-coordinate only. -/
def into_montgomery_compressed (P : WeierstrassPoint) : ℕ :=
  (into_montgomery P).1

/-- The `Add` impl for `WeierstrassPoint`: the constant-time combined affine
addition and doubling, with its three masking layers.  `Choice`-masked
conditional assignments are embedded as selections on the corresponding
decoded conditions. -/
def add (P Q : WeierstrassPoint) : WeierstrassPoint :=
  let x1 := fe_from_bytes P.x
  let y1 := fe_from_bytes P.y
  let x2 := fe_from_bytes Q.x
  let y2 := fe_from_bytes Q.y
  let x1s := fe_square x1
  let x1s3 := fe_add (fe_add x1s x1s) x1s
  let a := fe_from_bytes WEI25519_A
  let s := fe_mul (fe_add x1s3 a) (fe_invert (fe_add y1 y1))
  let r := fe_mul (fe_sub y2 y1) (fe_invert (fe_sub x2 x1))
  let x_eq := x_ct_eq P Q
  let y_eq := y_ct_eq P Q
  let u := if x_eq && y_eq then s else r
  let x3 := fe_sub (fe_sub (fe_square u) x1) x2
  let y3 := fe_sub (fe_mul u (fe_sub x1 x3)) y1
  let inf1 := at_infinity P
  let x3 := if inf1 then x2 else x3
  let y3 := if inf1 then y2 else y3
  let inf2 := at_infinity Q && !inf1
  let x3 := if inf2 then x1 else x3
  let y3 := if inf2 then y1 else y3
  let xeqf := x_eq && !inf1 && !inf2 && !y_eq
  let x3 := if xeqf then 0 else x3
  let y3 := if xeqf then 0 else y3
  ⟨x3, y3⟩

/-- `WeierstrassPoint::double`, defined in the source as `*self + *self`. -/
def double (P : WeierstrassPoint) : WeierstrassPoint := add P P

/-- Iterated doubling (used to describe the running point of the scalar
multiplication loop). -/
def iter_double : ℕ → WeierstrassPoint → WeierstrassPoint
  | 0, q => q
  | m + 1, q => iter_double m (double q)

/-- The Wei25519 base point constant of the source
(`constants::WEI25519_BASEPOINT`). -/
def WEI25519_BASEPOINT : WeierstrassPoint := ⟨WEI25519_G_X, WEI25519_G_Y⟩

/-- The affine 2-torsion point of Wei25519: the image (δ, 0) of the
Montgomery point (0, 0) of order 2 under the birational map. -/
def two_torsion : WeierstrassPoint := ⟨DELTA, 0⟩

/-- `WeierstrassPoint::add_not_constant_time`: branchy affine addition. -/
def add_not_constant_time (P Q : WeierstrassPoint) : WeierstrassPoint :=
  if at_infinity P then Q
  else if at_infinity Q then P
  else if x_ct_eq P Q then
    if y_ct_eq P Q then double P
    else identity
  else
    let x1 := fe_from_bytes P.x
    let y1 := fe_from_bytes P.y
    let x2 := fe_from_bytes Q.x
    let y2 := fe_from_bytes Q.y
    let u := fe_mul (fe_sub y2 y1) (fe_invert (fe_sub x2 x1))
    let x3 := fe_sub (fe_sub (fe_square u) x1) x2
    let y3 := fe_sub (fe_mul u (fe_sub x1 x3)) y1
    ⟨x3, y3⟩

/-- The loop body of the `Mul` impl, indexed by a countdown fuel `n` and the
current bit index `i`: `acc += select(identity, q, bits i)` then `q`
doubles. -/
def mulAux (bits : ℕ → ℕ) : ℕ → ℕ → WeierstrassPoint → WeierstrassPoint → WeierstrassPoint
  | 0, _, acc, _ => acc
  | n + 1, i, acc, q =>
      mulAux bits n (i + 1)
        (add acc (conditional_select identity q (bits i == 1)))
        (double q)

/-- The `Mul` impl for `WeierstrassPoint` by a scalar, given the scalar's
LSB-first bit array: 255 iterations of masked add-and-double. -/
def smul (P : WeierstrassPoint) (bits : ℕ → ℕ) : WeierstrassPoint :=
  mulAux bits 255 0 identity P

/-- Modelled from the spec: `clamp_scalar` of the external x25519 library
(§3, X25519 clamping): clear the low 3 bits, clear bit 255, set bit 254.
The clamped scalar is used with its raw bit decomposition. -/
def clamp_scalar (k : ℕ) : ℕ := k % 2 ^ 254 - k % 8 + 2 ^ 254

/-- Modelled from the spec: the scalar's LSB-first radix-2 bit
decomposition (§3). -/
def scalar_bit (s i : ℕ) : ℕ := s / 2 ^ i % 2

/-- The free function `w25519(k, u, v)` of `w25519.rs`: clamp, lift to
Weierstrass, scalar-multiply, project back. -/
def w25519 (k u v : ℕ) : ℕ × ℕ :=
  into_montgomery (smul (from_montgomery u v) (scalar_bit (clamp_scalar k)))

/-- Modelled from the spec: the `IsIdentity` trait of the external traits
module, point equality with the identity encoding. -/
def is_identity (P : WeierstrassPoint) : Bool := ct_eq P identity

/-- `SharedSecret::was_contributory`: not the identity. -/
def was_contributory (S : WeierstrassPoint) : Bool := !is_identity S

/-- A conditional swap, used by the reference Montgomery ladder. -/
def cswap (sw : Bool) (a b : ℕ) : ℕ × ℕ := if sw then (b, a) else (a, b)

/-- Modelled from the spec: one pass of the RFC 7748 X25519 Montgomery
ladder main loop, iterating the countdown fuel `t + 1` over bit `t` of the
scalar.  State is `(x2, z2, x3, z3, swap)`. -/
def ladderAux (k x1 : ℕ) : ℕ → ℕ × ℕ × ℕ × ℕ × Bool → ℕ × ℕ × ℕ × ℕ × Bool
  | 0, st => st
  | t + 1, (x2, z2, x3, z3, swap) =>
      let kt := k / 2 ^ t % 2 == 1
      let swp := xor swap kt
      let (x2, x3) := cswap swp x2 x3
      let (z2, z3) := cswap swp z2 z3
      let A := fe_add x2 z2
      let AA := fe_square A
      let B := fe_sub x2 z2
      let BB := fe_square B
      let E := fe_sub AA BB
      let C := fe_add x3 z3
      let D := fe_sub x3 z3
      let DA := fe_mul D A
      let CB := fe_mul C B
      let x3n := fe_square (fe_add DA CB)
      let z3n := fe_mul x1 (fe_square (fe_sub DA CB))
      let x2n := fe_mul AA BB
      let z2n := fe_mul E (fe_add AA (fe_mul 121665 E))
      ladderAux k x1 t (x2n, z2n, x3n, z3n, kt)

/-- Modelled from the spec: the RFC 7748 X25519 Montgomery ladder on an
already-clamped scalar `k` and u-coordinate bytes `u` (bit 255 of `u` is
masked on decode), over 255 bits. -/
def montLadder (k u : ℕ) : ℕ :=
  let x1 := fe_from_bytes u
  let st := ladderAux k x1 255 (1, 0, x1, 1, false)
  let x2 := (cswap st.2.2.2.2 st.1 st.2.2.1).1
  let z2 := (cswap st.2.2.2.2 st.2.1 st.2.2.2.1).1
  fe_mul x2 (fe_invert z2)

/-- Modelled from the spec: the byte-oriented `x25519` reference function
(clamp then ladder), used as the comparison point for claim C1. -/
def x25519 (k u : ℕ) : ℕ := montLadder (clamp_scalar k) u

/-- Modelled from the spec: membership of a Montgomery coordinate pair on
Curve25519, `v^2 = u^3 + 486662 u^2 + u` over GF(p) (glossary), on the
decoded field elements. -/
def mont_on_curve (u v : ℕ) : Prop :=
  ((fe_from_bytes v : ℕ) : ZMod p) ^ 2 =
    ((fe_from_bytes u : ℕ) : ZMod p) ^ 3 +
      486662 * ((fe_from_bytes u : ℕ) : ZMod p) ^ 2 +
      ((fe_from_bytes u : ℕ) : ZMod p)

/-- Decode a byte value as an element of the field GF(p). -/
def feF (b : ℕ) : ZMod p := ((fe_from_bytes b : ℕ) : ZMod p)

/-- The decoded field-element pair of a point (point equality modulo p is
equality of these pairs). -/
def decodePair (P : WeierstrassPoint) : ZMod p × ZMod p := (feF P.x, feF P.y)

/-- The Weierstrass a-parameter of Wei25519, as decoded from the source's
byte constant. -/
def aF : ZMod p := feF WEI25519_A

/-- Modelled from the spec: the Weierstrass b-parameter of Wei25519.  The
core never uses b; the spec (§3) fixes the curve by requiring the base
point G_W to lie on it, which determines b as y_G^2 - x_G^3 - a x_G. -/
def bF : ZMod p :=
  feF WEI25519_G_Y ^ 2 - feF WEI25519_G_X ^ 3 - aF * feF WEI25519_G_X

/-- Wei25519 as a Mathlib affine Weierstrass curve, y^2 = x^3 + a x + b. -/
def Wcurve : WeierstrassCurve.Affine (ZMod p) :=
  { a₁ := 0, a₂ := 0, a₃ := 0, a₄ := aF, a₆ := bF }

/-- The valid inputs of the group-law claims: a coordinate pair decoding to
the identity encoding (0, 0), or to a nonsingular affine point of
Wei25519. -/
def onW (P : WeierstrassPoint) : Prop :=
  (feF P.x = 0 ∧ feF P.y = 0) ∨ Wcurve.Nonsingular (feF P.x) (feF P.y)

/-- Interpret a valid coordinate point as a point of the Mathlib curve
group: the identity encoding becomes the point at infinity. -/
def toPoint (P : WeierstrassPoint) (h : onW P) : Wcurve.Point :=
  if h0 : feF P.x = 0 ∧ feF P.y = 0 then 0
  else WeierstrassCurve.Affine.Point.some (h.resolve_left h0)

/-- The coordinates of a Mathlib curve point, with the point at infinity
encoded as (0, 0) as the source does. -/
def projPoint : Wcurve.Point → ZMod p × ZMod p
  | WeierstrassCurve.Affine.Point.zero => (0, 0)
  | @WeierstrassCurve.Affine.Point.some _ _ _ x y _ => (x, y)

/-! ### Correctness of binary modular exponentiation, and primality of p

The field facts used by the claims (inverse correctness for the slope
computations, absence of zero divisors) need p = 2^255 - 19 to be prime.
This is established by a Pratt/Lucas certificate chain, each step verified
by the kernel through `powMod`. -/

theorem powModAux_correct :
    ∀ f a k n, k < 2 ^ f → powModAux f a k n = a ^ k % n := by
  intro f
  induction f with
  | zero =>
      intro a k n hk
      have hk0 : k = 0 := by omega
      subst hk0
      simp [powModAux]
  | succ f ih =>
      intro a k n hk
      by_cases hk0 : k = 0
      · subst hk0
        simp [powModAux]
      · have hk2 : k / 2 < 2 ^ f := by
          have h2 : 2 ^ (f + 1) = 2 ^ f * 2 := by ring
          omega
        have hmod : (a * a % n) ^ (k / 2) % n = (a * a) ^ (k / 2) % n :=
          (Nat.pow_mod (a * a) (k / 2) n).symm
        have hsplit : a ^ k = (a * a) ^ (k / 2) * a ^ (k % 2) := by
          conv_lhs => rw [← Nat.div_add_mod k 2]
          rw [pow_add, pow_mul, pow_two]
        simp only [powModAux, if_neg hk0]
        rw [ih (a * a % n) (k / 2) n hk2, hmod]
        rcases Nat.mod_two_eq_zero_or_one k with h2 | h2
        · rw [h2, if_neg (by decide : ¬(0 = 1)), hsplit, h2, pow_zero, mul_one]
        · rw [h2, if_pos rfl, hsplit, h2, pow_one]
          conv_rhs => rw [Nat.mul_mod]

theorem powMod_correct (a k n : ℕ) (hk : k < 2 ^ 256) : powMod a k n = a ^ k % n :=
  powModAux_correct 256 a k n hk

theorem cast_powMod (n a k : ℕ) (hk : k < 2 ^ 256) :
    ((powMod a k n : ℕ) : ZMod n) = (a : ZMod n) ^ k := by
  rw [powMod_correct a k n hk, ZMod.natCast_mod, Nat.cast_pow]

theorem powMod_ne_one {n a k : ℕ} (hn : 2 ≤ n) (hk : k < 2 ^ 256)
    (h : powMod a k n ≠ 1) : (a : ZMod n) ^ k ≠ 1 := by
  rw [← cast_powMod n a k hk]
  intro hc
  have hlt : powMod a k n < n := by
    rw [powMod_correct a k n hk]
    exact Nat.mod_lt _ (by omega)
  have h1 : ((1 : ℕ) : ZMod n) = (1 : ZMod n) := Nat.cast_one
  have hmod := (ZMod.natCast_eq_natCast_iff' (powMod a k n) 1 n).mp (by rw [h1, hc])
  rw [Nat.mod_eq_of_lt hlt, Nat.mod_eq_of_lt (by omega : 1 < n)] at hmod
  exact h hmod

theorem list_prime_dvd {q : ℕ} (hq : Nat.Prime q) :
    ∀ l : List ℕ, (∀ r ∈ l, Nat.Prime r) → q ∣ l.prod → q ∈ l := by
  intro l
  induction l with
  | nil =>
      intro _ hdvd
      rw [List.prod_nil, Nat.dvd_one] at hdvd
      exact absurd hdvd hq.ne_one
  | cons r t ih =>
      intro hall hdvd
      rw [List.prod_cons] at hdvd
      rcases (Nat.Prime.dvd_mul hq).mp hdvd with h | h
      · have hr : Nat.Prime r := hall r (List.mem_cons_self r t)
        exact ((Nat.prime_dvd_prime_iff_eq hq hr).mp h) ▸ List.mem_cons_self r t
      · exact List.mem_cons_of_mem r (ih (fun s hs => hall s (List.mem_cons_of_mem r hs)) h)

/-- A Lucas primality certificate: a witness of order n - 1 modulo n, given
the complete prime factor list of n - 1. -/
theorem lucasCert (n a : ℕ) (l : List ℕ) (hn : 2 ≤ n) (hsz : n < 2 ^ 256)
    (hl : ∀ q ∈ l, Nat.Prime q) (hprod : l.prod = n - 1)
    (ha : powMod a (n - 1) n = 1)
    (hd : ∀ q ∈ l, powMod a ((n - 1) / q) n ≠ 1) : Nat.Prime n := by
  apply lucas_primality n (a : ZMod n)
  · rw [← cast_powMod n a (n - 1) (by omega), ha, Nat.cast_one]
  · intro q hq hqd
    have hmem : q ∈ l := list_prime_dvd hq l hl (by rw [hprod]; exact hqd)
    exact powMod_ne_one hn
      (lt_of_le_of_lt (Nat.div_le_self _ _) (by omega)) (hd q hmem)

theorem prime_5 : Nat.Prime 5 := by norm_num

theorem prime_7 : Nat.Prime 7 := by norm_num

theorem prime_13 : Nat.Prime 13 := by norm_num

theorem prime_19 : Nat.Prime 19 := by norm_num

theorem prime_31 : Nat.Prime 31 := by norm_num

theorem prime_47 : Nat.Prime 47 := by norm_num

theorem prime_107 : Nat.Prime 107 := by norm_num

theorem prime_127 : Nat.Prime 127 := by norm_num

theorem prime_223 : Nat.Prime 223 := by norm_num

theorem prime_353 : Nat.Prime 353 := by norm_num

theorem prime_2437 : Nat.Prime 2437 := by norm_num

theorem prime_4153 : Nat.Prime 4153 := by norm_num

theorem prime_57467 : Nat.Prime 57467 := by norm_num

theorem prime_65147 : Nat.Prime 65147 := by norm_num

theorem prime_75707 : Nat.Prime 75707 := by norm_num

theorem prime_132049 : Nat.Prime 132049 := by norm_num

theorem prime_430751 : Nat.Prime 430751 := by norm_num

theorem prime_569003 : Nat.Prime 569003 := by norm_num

theorem prime_1923133 : Nat.Prime 1923133 := by norm_num

theorem prime_8574133 : Nat.Prime 8574133 := by norm_num

theorem prime_2773320623 : Nat.Prime 2773320623 := by
  refine lucasCert 2773320623 5 [2, 2437, 569003] (by norm_num) (by norm_num) ?_ (by decide) (by decide) (by decide)
  intro q hq
  simp only [List.mem_cons, List.mem_singleton, List.not_mem_nil, or_false] at hq
  rcases hq with rfl | rfl | rfl
  exacts [Nat.prime_two, prime_2437, prime_569003]

theorem prime_72106336199 : Nat.Prime 72106336199 := by
  refine lucasCert 72106336199 7 [2, 13, 2773320623] (by norm_num) (by norm_num) ?_ (by decide) (by decide) (by decide)
  intro q hq
  simp only [List.mem_cons, List.mem_singleton, List.not_mem_nil, or_false] at hq
  rcases hq with rfl | rfl | rfl
  exacts [Nat.prime_two, prime_13, prime_2773320623]

theorem prime_1919519569386763 : Nat.Prime 1919519569386763 := by
  refine lucasCert 1919519569386763 2 [2, 3, 7, 19, 47, 47, 127, 8574133] (by norm_num) (by norm_num) ?_ (by decide) (by decide) (by decide)
  intro q hq
  simp only [List.mem_cons, List.mem_singleton, List.not_mem_nil, or_false] at hq
  rcases hq with rfl | rfl | rfl | rfl | rfl | rfl | rfl | rfl
  exacts [Nat.prime_two, Nat.prime_three, prime_7, prime_19, prime_47, prime_47, prime_127, prime_8574133]

theorem prime_31757755568855353 : Nat.Prime 31757755568855353 := by
  refine lucasCert 31757755568855353 10 [2, 2, 2, 3, 31, 107, 223, 4153, 430751] (by norm_num) (by norm_num) ?_ (by decide) (by decide) (by decide)
  intro q hq
  simp only [List.mem_cons, List.mem_singleton, List.not_mem_nil, or_false] at hq
  rcases hq with rfl | rfl | rfl | rfl | rfl | rfl | rfl | rfl | rfl
  exacts [Nat.prime_two, Nat.prime_two, Nat.prime_two, Nat.prime_three, prime_31, prime_107, prime_223, prime_4153, prime_430751]

theorem prime_75445702479781427272750846543864801 : Nat.Prime 75445702479781427272750846543864801 := by
  refine lucasCert 75445702479781427272750846543864801 7 [2, 2, 2, 2, 2, 3, 3, 5, 5, 75707, 72106336199, 1919519569386763] (by norm_num) (by norm_num) ?_ (by decide) (by decide) (by decide)
  intro q hq
  simp only [List.mem_cons, List.mem_singleton, List.not_mem_nil, or_false] at hq
  rcases hq with rfl | rfl | rfl | rfl | rfl | rfl | rfl | rfl | rfl | rfl | rfl | rfl
  exacts [Nat.prime_two, Nat.prime_two, Nat.prime_two, Nat.prime_two, Nat.prime_two, Nat.prime_three, Nat.prime_three, prime_5, prime_5, prime_75707, prime_72106336199, prime_1919519569386763]

theorem prime_74058212732561358302231226437062788676166966415465897661863160754340907 : Nat.Prime 74058212732561358302231226437062788676166966415465897661863160754340907 := by
  refine lucasCert 74058212732561358302231226437062788676166966415465897661863160754340907 2 [2, 3, 353, 57467, 132049, 1923133, 31757755568855353, 75445702479781427272750846543864801] (by norm_num) (by norm_num) ?_ (by decide) (by decide) (by decide)
  intro q hq
  simp only [List.mem_cons, List.mem_singleton, List.not_mem_nil, or_false] at hq
  rcases hq with rfl | rfl | rfl | rfl | rfl | rfl | rfl | rfl
  exacts [Nat.prime_two, Nat.prime_three, prime_353, prime_57467, prime_132049, prime_1923133, prime_31757755568855353, prime_75445702479781427272750846543864801]

/-- p = 2^255 - 19 is prime, by the Lucas certificate chain above. -/
theorem p_prime : Nat.Prime p := by
  refine lucasCert p 2 [2, 2, 3, 65147, 74058212732561358302231226437062788676166966415465897661863160754340907] (by decide) (by decide) ?_ (by decide) (by decide) (by decide)
  intro q hq
  simp only [List.mem_cons, List.mem_singleton, List.not_mem_nil, or_false] at hq
  rcases hq with rfl | rfl | rfl | rfl | rfl
  exacts [Nat.prime_two, Nat.prime_two, Nat.prime_three, prime_65147, prime_74058212732561358302231226437062788676166966415465897661863160754340907]

instance fact_p_prime : Fact (Nat.Prime p) := ⟨p_prime⟩

/-! ### Bridging the byte-level model to the field GF(p) -/

theorem p_pos : 0 < p := by decide

theorem p_lt_shift : p < 2 ^ 255 := by decide

theorem fe_from_bytes_lt (b : ℕ) : fe_from_bytes b < p := Nat.mod_lt _ p_pos

theorem fe_add_lt (a b : ℕ) : fe_add a b < p := Nat.mod_lt _ p_pos

theorem fe_sub_lt (a b : ℕ) : fe_sub a b < p := Nat.mod_lt _ p_pos

theorem fe_mul_lt (a b : ℕ) : fe_mul a b < p := Nat.mod_lt _ p_pos

theorem fe_square_lt (a : ℕ) : fe_square a < p := Nat.mod_lt _ p_pos

theorem fe_invert_lt (a : ℕ) : fe_invert a < p := by
  rw [fe_invert, powMod_correct _ _ _ (by decide : p - 2 < 2 ^ 256)]
  exact Nat.mod_lt _ p_pos

theorem fe_from_bytes_of_lt {v : ℕ} (h : v < p) : fe_from_bytes v = v := by
  rw [fe_from_bytes, Nat.mod_eq_of_lt (lt_trans h p_lt_shift), Nat.mod_eq_of_lt h]

theorem cast_fe_add (a b : ℕ) :
    ((fe_add a b : ℕ) : ZMod p) = (a : ZMod p) + (b : ZMod p) := by
  rw [fe_add, ZMod.natCast_mod, Nat.cast_add]

theorem cast_fe_sub (a b : ℕ) :
    ((fe_sub a b : ℕ) : ZMod p) = (a : ZMod p) - (b : ZMod p) := by
  rw [fe_sub, ZMod.natCast_mod, Nat.cast_add,
    Nat.cast_sub (le_of_lt (Nat.mod_lt _ p_pos)), ZMod.natCast_self,
    ZMod.natCast_mod]
  ring

theorem cast_fe_mul (a b : ℕ) :
    ((fe_mul a b : ℕ) : ZMod p) = (a : ZMod p) * (b : ZMod p) := by
  rw [fe_mul, ZMod.natCast_mod, Nat.cast_mul]

theorem cast_fe_square (a : ℕ) :
    ((fe_square a : ℕ) : ZMod p) = (a : ZMod p) * (a : ZMod p) := by
  rw [fe_square, ZMod.natCast_mod, Nat.cast_mul]

theorem pow_p_sub_two_eq_inv (a : ZMod p) : a ^ (p - 2) = a⁻¹ := by
  by_cases ha : a = 0
  · subst ha
    rw [zero_pow (by decide : p - 2 ≠ 0), inv_zero]
  · have h3 : 3 ≤ p := by decide
    have hstep : a ^ (p - 2) * a = 1 := by
      have hexp : p - 2 + 1 = p - 1 := by omega
      rw [← pow_succ, hexp]
      exact ZMod.pow_card_sub_one_eq_one ha
    exact mul_right_cancel₀ ha (by rw [hstep, inv_mul_cancel₀ ha])

theorem cast_fe_invert (a : ℕ) :
    ((fe_invert a : ℕ) : ZMod p) = ((a : ZMod p))⁻¹ := by
  rw [fe_invert, cast_powMod p (a % p) (p - 2) (by decide), ZMod.natCast_mod]
  exact pow_p_sub_two_eq_inv _

theorem cast_eq_iff {a b : ℕ} (ha : a < p) (hb : b < p) :
    ((a : ZMod p) = (b : ZMod p)) ↔ a = b := by
  rw [ZMod.natCast_eq_natCast_iff', Nat.mod_eq_of_lt ha, Nat.mod_eq_of_lt hb]

theorem feF_of_reduced {v : ℕ} (h : v < p) : feF v = ((v : ℕ) : ZMod p) := by
  rw [feF, fe_from_bytes_of_lt h]

theorem feF_zero : feF 0 = 0 := by
  rw [feF_of_reduced p_pos, Nat.cast_zero]

theorem x_ct_eq_iff (P Q : WeierstrassPoint) :
    x_ct_eq P Q = true ↔ feF P.x = feF Q.x := by
  rw [x_ct_eq, beq_iff_eq, feF, feF]
  exact (cast_eq_iff (fe_from_bytes_lt _) (fe_from_bytes_lt _)).symm

theorem y_ct_eq_iff (P Q : WeierstrassPoint) :
    y_ct_eq P Q = true ↔ feF P.y = feF Q.y := by
  rw [y_ct_eq, beq_iff_eq, feF, feF]
  exact (cast_eq_iff (fe_from_bytes_lt _) (fe_from_bytes_lt _)).symm

theorem at_infinity_iff (P : WeierstrassPoint) :
    at_infinity P = true ↔ feF P.x = 0 ∧ feF P.y = 0 := by
  rw [at_infinity, Bool.and_eq_true, x_ct_eq_iff, y_ct_eq_iff]
  have hx : feF identity.x = 0 := feF_zero
  have hy : feF identity.y = 0 := feF_zero
  rw [hx, hy]

theorem ct_eq_iff (P Q : WeierstrassPoint) :
    ct_eq P Q = true ↔ feF P.x = feF Q.x ∧ feF P.y = feF Q.y := by
  rw [ct_eq, Bool.and_eq_true, x_ct_eq_iff, y_ct_eq_iff]

theorem ct_eq_iff_decodePair (P Q : WeierstrassPoint) :
    ct_eq P Q = true ↔ decodePair P = decodePair Q := by
  rw [ct_eq_iff, decodePair, decodePair, Prod.ext_iff]

/-! ### The Wei25519 curve and its Mathlib group structure -/

theorem Wcurve_a1 : Wcurve.a₁ = 0 := rfl

theorem Wcurve_a2 : Wcurve.a₂ = 0 := rfl

theorem Wcurve_a3 : Wcurve.a₃ = 0 := rfl

theorem Wcurve_a4 : Wcurve.a₄ = aF := rfl

theorem Wcurve_a6 : Wcurve.a₆ = bF := rfl

theorem equation_iff_W (x y : ZMod p) :
    Wcurve.Equation x y ↔ y ^ 2 = x ^ 3 + aF * x + bF := by
  rw [WeierstrassCurve.Affine.equation_iff, Wcurve_a1, Wcurve_a2, Wcurve_a3,
    Wcurve_a4, Wcurve_a6]
  constructor <;> intro h <;> linear_combination h

theorem negY_W (x y : ZMod p) : Wcurve.negY x y = -y := by
  rw [WeierstrassCurve.Affine.negY, Wcurve_a1, Wcurve_a3]
  ring

theorem disc_eq : Wcurve.Δ = -(64 * aF ^ 3 + 432 * bF ^ 2) := by
  simp only [WeierstrassCurve.Δ, WeierstrassCurve.b₂, WeierstrassCurve.b₄,
    WeierstrassCurve.b₆, WeierstrassCurve.b₈, Wcurve_a1, Wcurve_a2, Wcurve_a3,
    Wcurve_a4, Wcurve_a6]
  ring

theorem bF_eq : bF =
    ((0x7b425ed097b425ed097b425ed097b425ed097b425ed097b4260b5e9c7710c864 : ℕ) :
      ZMod p) := by
  have h : feF WEI25519_G_Y ^ 2 =
      ((0x7b425ed097b425ed097b425ed097b425ed097b425ed097b4260b5e9c7710c864 : ℕ) :
        ZMod p) + feF WEI25519_G_X ^ 3 + aF * feF WEI25519_G_X := by
    rw [aF, feF, feF, feF, ← Nat.cast_pow, ← Nat.cast_pow, ← Nat.cast_mul,
      ← Nat.cast_add, ← Nat.cast_add, ZMod.natCast_eq_natCast_iff']
    decide
  rw [bF, h]
  ring

theorem bF_ne_zero : bF ≠ 0 := by
  rw [bF_eq]
  intro hc
  rw [show (0 : ZMod p) = ((0 : ℕ) : ZMod p) from Nat.cast_zero.symm,
    ZMod.natCast_eq_natCast_iff'] at hc
  revert hc
  decide

theorem disc_ne_zero : Wcurve.Δ ≠ 0 := by
  have hval : (64 * aF ^ 3 + 432 * bF ^ 2 : ZMod p) =
      ((64 * fe_from_bytes WEI25519_A ^ 3 +
        432 * 0x7b425ed097b425ed097b425ed097b425ed097b425ed097b4260b5e9c7710c864 ^ 2 : ℕ) :
        ZMod p) := by
    rw [aF, bF_eq, feF]
    push_cast
    ring
  rw [disc_eq, neg_ne_zero, hval]
  intro hc
  rw [show (0 : ZMod p) = ((0 : ℕ) : ZMod p) from Nat.cast_zero.symm,
    ZMod.natCast_eq_natCast_iff'] at hc
  revert hc
  decide

theorem two_ne_zero_F : (2 : ZMod p) ≠ 0 := by
  have h2 : ((2 : ℕ) : ZMod p) ≠ ((0 : ℕ) : ZMod p) := by
    rw [Ne, ZMod.natCast_eq_natCast_iff']
    decide
  simpa using h2

theorem feF_DELTA_ne_zero : feF DELTA ≠ 0 := by
  rw [feF]
  intro hc
  rw [show (0 : ZMod p) = ((0 : ℕ) : ZMod p) from Nat.cast_zero.symm,
    ZMod.natCast_eq_natCast_iff'] at hc
  revert hc
  decide

theorem nonsingular_W {x y : ZMod p} (h : y ^ 2 = x ^ 3 + aF * x + bF) :
    Wcurve.Nonsingular x y :=
  Wcurve.nonsingular_of_Δ_ne_zero ((equation_iff_W x y).mpr h) disc_ne_zero

theorem nonsingular_ne_ident {x y : ZMod p} (h : Wcurve.Nonsingular x y) :
    ¬(x = 0 ∧ y = 0) := by
  rintro ⟨rfl, rfl⟩
  have heq := (equation_iff_W 0 0).mp h.1
  simp at heq
  exact bF_ne_zero heq.symm

theorem projPoint_zero : projPoint 0 = (0, 0) := rfl

theorem projPoint_some {x y : ZMod p} (h : Wcurve.Nonsingular x y) :
    projPoint (WeierstrassCurve.Affine.Point.some h) = (x, y) := rfl

theorem toPoint_ident {P : WeierstrassPoint} (h : onW P)
    (h0 : feF P.x = 0 ∧ feF P.y = 0) : toPoint P h = 0 := dif_pos h0

theorem toPoint_some {P : WeierstrassPoint} (h : onW P)
    (h0 : ¬(feF P.x = 0 ∧ feF P.y = 0)) :
    toPoint P h = WeierstrassCurve.Affine.Point.some (h.resolve_left h0) :=
  dif_neg h0

/-! ### Decode-level characterization of the constant-time addition -/

theorem at_infinity_false_iff (P : WeierstrassPoint) :
    at_infinity P = false ↔ ¬(feF P.x = 0 ∧ feF P.y = 0) :=
  Bool.eq_false_iff.trans (not_congr (at_infinity_iff P))

theorem x_ct_eq_false_iff (P Q : WeierstrassPoint) :
    x_ct_eq P Q = false ↔ feF P.x ≠ feF Q.x :=
  Bool.eq_false_iff.trans (not_congr (x_ct_eq_iff P Q))

theorem y_ct_eq_false_iff (P Q : WeierstrassPoint) :
    y_ct_eq P Q = false ↔ feF P.y ≠ feF Q.y :=
  Bool.eq_false_iff.trans (not_congr (y_ct_eq_iff P Q))

theorem fe_from_bytes_fe_add (a b : ℕ) :
    fe_from_bytes (fe_add a b) = fe_add a b :=
  fe_from_bytes_of_lt (fe_add_lt a b)

theorem fe_from_bytes_fe_sub (a b : ℕ) :
    fe_from_bytes (fe_sub a b) = fe_sub a b :=
  fe_from_bytes_of_lt (fe_sub_lt a b)

theorem fe_from_bytes_zero : fe_from_bytes 0 = 0 := rfl

theorem add_eq_left_inf {P Q : WeierstrassPoint} (h : at_infinity P = true) :
    add P Q = ⟨fe_from_bytes Q.x, fe_from_bytes Q.y⟩ := by
  simp [add, h]

theorem add_eq_right_inf {P Q : WeierstrassPoint} (h1 : at_infinity P = false)
    (h2 : at_infinity Q = true) :
    add P Q = ⟨fe_from_bytes P.x, fe_from_bytes P.y⟩ := by
  simp [add, h1, h2]

theorem add_eq_vertical {P Q : WeierstrassPoint} (h1 : at_infinity P = false)
    (h2 : at_infinity Q = false) (hx : x_ct_eq P Q = true)
    (hy : y_ct_eq P Q = false) : add P Q = ⟨0, 0⟩ := by
  simp [add, h1, h2, hx, hy]

theorem decode_add_inf_left {P Q : WeierstrassPoint}
    (h : feF P.x = 0 ∧ feF P.y = 0) :
    decodePair (add P Q) = (feF Q.x, feF Q.y) := by
  rw [add_eq_left_inf ((at_infinity_iff P).mpr h)]
  simp only [decodePair, feF, fe_from_bytes_of_lt (fe_from_bytes_lt Q.x),
    fe_from_bytes_of_lt (fe_from_bytes_lt Q.y)]

theorem decode_add_inf_right {P Q : WeierstrassPoint}
    (h1 : ¬(feF P.x = 0 ∧ feF P.y = 0)) (h2 : feF Q.x = 0 ∧ feF Q.y = 0) :
    decodePair (add P Q) = (feF P.x, feF P.y) := by
  rw [add_eq_right_inf ((at_infinity_false_iff P).mpr h1)
    ((at_infinity_iff Q).mpr h2)]
  simp only [decodePair, feF, fe_from_bytes_of_lt (fe_from_bytes_lt P.x),
    fe_from_bytes_of_lt (fe_from_bytes_lt P.y)]

theorem decode_add_vertical {P Q : WeierstrassPoint}
    (h1 : ¬(feF P.x = 0 ∧ feF P.y = 0)) (h2 : ¬(feF Q.x = 0 ∧ feF Q.y = 0))
    (hx : feF P.x = feF Q.x) (hy : feF P.y ≠ feF Q.y) :
    decodePair (add P Q) = (0, 0) := by
  rw [add_eq_vertical ((at_infinity_false_iff P).mpr h1)
    ((at_infinity_false_iff Q).mpr h2) ((x_ct_eq_iff P Q).mpr hx)
    ((y_ct_eq_false_iff P Q).mpr hy)]
  simp only [decodePair, feF_zero]

theorem decode_add_tangent {P Q : WeierstrassPoint}
    (h1 : ¬(feF P.x = 0 ∧ feF P.y = 0)) (h2 : ¬(feF Q.x = 0 ∧ feF Q.y = 0))
    (hx : feF P.x = feF Q.x) (hy : feF P.y = feF Q.y) :
    decodePair (add P Q) =
      (((3 * feF P.x ^ 2 + aF) * (feF P.y + feF P.y)⁻¹) ^ 2 - feF P.x - feF Q.x,
       ((3 * feF P.x ^ 2 + aF) * (feF P.y + feF P.y)⁻¹) *
         (feF P.x -
           (((3 * feF P.x ^ 2 + aF) * (feF P.y + feF P.y)⁻¹) ^ 2 - feF P.x -
             feF Q.x)) - feF P.y) := by
  have h1B := (at_infinity_false_iff P).mpr h1
  have h2B := (at_infinity_false_iff Q).mpr h2
  have hxB := (x_ct_eq_iff P Q).mpr hx
  have hyB := (y_ct_eq_iff P Q).mpr hy
  simp only [add, h1B, h2B, hxB, hyB, Bool.not_false, Bool.not_true,
    Bool.and_true, Bool.and_false, Bool.false_and, Bool.true_and,
    Bool.and_self, Bool.false_eq_true, Bool.true_eq_false, eq_self_iff_true,
    ite_true, ite_false]
  simp only [decodePair, aF, feF, fe_from_bytes_fe_sub, cast_fe_sub,
    cast_fe_mul, cast_fe_add, cast_fe_square, cast_fe_invert, Prod.mk.injEq]
  exact ⟨by ring, by ring⟩

theorem decode_add_chord {P Q : WeierstrassPoint}
    (h1 : ¬(feF P.x = 0 ∧ feF P.y = 0)) (h2 : ¬(feF Q.x = 0 ∧ feF Q.y = 0))
    (hx : feF P.x ≠ feF Q.x) :
    decodePair (add P Q) =
      (((feF Q.y - feF P.y) * (feF Q.x - feF P.x)⁻¹) ^ 2 - feF P.x - feF Q.x,
       ((feF Q.y - feF P.y) * (feF Q.x - feF P.x)⁻¹) *
         (feF P.x -
           (((feF Q.y - feF P.y) * (feF Q.x - feF P.x)⁻¹) ^ 2 - feF P.x -
             feF Q.x)) - feF P.y) := by
  have h1B := (at_infinity_false_iff P).mpr h1
  have h2B := (at_infinity_false_iff Q).mpr h2
  have hxB := (x_ct_eq_false_iff P Q).mpr hx
  simp only [add, h1B, h2B, hxB, Bool.not_false, Bool.not_true, Bool.and_true,
    Bool.and_false, Bool.false_and, Bool.true_and, Bool.false_eq_true,
    Bool.true_eq_false, eq_self_iff_true, ite_true, ite_false]
  simp only [decodePair, aF, feF, fe_from_bytes_fe_sub, cast_fe_sub,
    cast_fe_mul, cast_fe_add, cast_fe_square, cast_fe_invert, Prod.mk.injEq]
  exact ⟨by ring, by ring⟩

theorem y_eq_negy_cases {P Q : WeierstrassPoint}
    (hPns : Wcurve.Nonsingular (feF P.x) (feF P.y))
    (hQns : Wcurve.Nonsingular (feF Q.x) (feF Q.y))
    (hx : feF P.x = feF Q.x) (hyy : feF P.y ≠ feF Q.y) :
    feF P.y = Wcurve.negY (feF Q.x) (feF Q.y) :=
  (WeierstrassCurve.Affine.Y_eq_of_X_eq hPns.1 hQns.1 hx).resolve_left hyy

theorem unified_add_group_law (P Q : WeierstrassPoint) (hP : onW P)
    (hQ : onW Q)
    (hxy : ¬(feF P.x = feF Q.x ∧ feF P.y = feF Q.y ∧ feF P.y = 0 ∧
      feF P.x ≠ 0)) :
    decodePair (add P Q) = projPoint (toPoint P hP + toPoint Q hQ) := by
  by_cases hP0 : feF P.x = 0 ∧ feF P.y = 0
  · rw [toPoint_ident hP hP0, zero_add, decode_add_inf_left hP0]
    by_cases hQ0 : feF Q.x = 0 ∧ feF Q.y = 0
    · rw [toPoint_ident hQ hQ0, projPoint_zero, hQ0.1, hQ0.2]
    · rw [toPoint_some hQ hQ0, projPoint_some]
  · have hPns : Wcurve.Nonsingular (feF P.x) (feF P.y) := hP.resolve_left hP0
    by_cases hQ0 : feF Q.x = 0 ∧ feF Q.y = 0
    · rw [toPoint_ident hQ hQ0, add_zero, toPoint_some hP hP0, projPoint_some]
      exact decode_add_inf_right hP0 hQ0
    · have hQns : Wcurve.Nonsingular (feF Q.x) (feF Q.y) := hQ.resolve_left hQ0
      rw [toPoint_some hP hP0, toPoint_some hQ hQ0]
      by_cases hx : feF P.x = feF Q.x
      · by_cases hyy : feF P.y = feF Q.y
        · have hy0 : feF P.y ≠ 0 :=
            fun h0 => hxy ⟨hx, hyy, h0, fun hx0 => hP0 ⟨hx0, h0⟩⟩
          have hneg : feF P.y ≠ Wcurve.negY (feF Q.x) (feF Q.y) := by
            rw [negY_W, ← hyy]
            intro hc
            apply hy0
            have h2y : (2 : ZMod p) * feF P.y = 0 := by linear_combination hc
            rcases mul_eq_zero.mp h2y with h | h
            · exact absurd h two_ne_zero_F
            · exact h
          rw [WeierstrassCurve.Affine.Point.add_of_Y_ne hneg, projPoint_some,
            decode_add_tangent hP0 hQ0 hx hyy]
          have hslope : Wcurve.slope (feF P.x) (feF Q.x) (feF P.y) (feF Q.y) =
              (3 * feF P.x ^ 2 + aF) * (feF P.y + feF P.y)⁻¹ := by
            rw [WeierstrassCurve.Affine.slope_of_Y_ne hx hneg, negY_W,
              Wcurve_a1, Wcurve_a2, Wcurve_a4, div_eq_mul_inv, sub_neg_eq_add]
            ring_nf
          rw [hslope]
          simp only [WeierstrassCurve.Affine.addX,
            WeierstrassCurve.Affine.addY, WeierstrassCurve.Affine.negAddY,
            WeierstrassCurve.Affine.negY, Wcurve_a1, Wcurve_a2, Wcurve_a3,
            Prod.mk.injEq]
          exact ⟨by ring, by ring⟩
        · have hneg := y_eq_negy_cases hPns hQns hx hyy
          rw [WeierstrassCurve.Affine.Point.add_of_Y_eq hx hneg,
            projPoint_zero]
          exact decode_add_vertical hP0 hQ0 hx hyy
      · rw [WeierstrassCurve.Affine.Point.add_of_X_ne hx, projPoint_some,
          decode_add_chord hP0 hQ0 hx]
        have hslope : Wcurve.slope (feF P.x) (feF Q.x) (feF P.y) (feF Q.y) =
            (feF Q.y - feF P.y) * (feF Q.x - feF P.x)⁻¹ := by
          rw [WeierstrassCurve.Affine.slope_of_X_ne hx, div_eq_mul_inv,
            show feF P.x - feF Q.x = -(feF Q.x - feF P.x) by ring, inv_neg]
          ring
        rw [hslope]
        simp only [WeierstrassCurve.Affine.addX, WeierstrassCurve.Affine.addY,
          WeierstrassCurve.Affine.negAddY, WeierstrassCurve.Affine.negY,
          Wcurve_a1, Wcurve_a2, Wcurve_a3, Prod.mk.injEq]
        exact ⟨by ring, by ring⟩

/-- A coordinate point that is the identity encoding or satisfies the
Wei25519 curve equation is a valid group point (the curve has nonzero
discriminant, so every point of the curve is nonsingular). -/
theorem onW_of_onCurve {P : WeierstrassPoint}
    (h : (feF P.x = 0 ∧ feF P.y = 0) ∨
      feF P.y ^ 2 = feF P.x ^ 3 + aF * feF P.x + bF) : onW P :=
  h.imp (fun h0 => h0) (fun he => nonsingular_W he)

/-- Claim C2, amended: for inputs that are each either the identity
encoding (0, 0) or a point on Wei25519, the constant-time addition returns
the mathematical elliptic-curve group sum in all cases except equal finite
points with y = 0 (2-torsion doubling); in particular the identity paired
with itself is handled correctly. -/
theorem C2_add_group_law_amended (P Q : WeierstrassPoint)
    (hP : (feF P.x = 0 ∧ feF P.y = 0) ∨
      feF P.y ^ 2 = feF P.x ^ 3 + aF * feF P.x + bF)
    (hQ : (feF Q.x = 0 ∧ feF Q.y = 0) ∨
      feF Q.y ^ 2 = feF Q.x ^ 3 + aF * feF Q.x + bF)
    (hxy : ¬(feF P.x = feF Q.x ∧ feF P.y = feF Q.y ∧ feF P.y = 0 ∧
      feF P.x ≠ 0)) :
    decodePair (add P Q) =
      projPoint (toPoint P (onW_of_onCurve hP) + toPoint Q (onW_of_onCurve hQ)) :=
  unified_add_group_law P Q (onW_of_onCurve hP) (onW_of_onCurve hQ) hxy

/-! ### Concrete curve points: the base point and the 2-torsion point -/

theorem basepoint_equation :
    feF WEI25519_BASEPOINT.y ^ 2 =
      feF WEI25519_BASEPOINT.x ^ 3 + aF * feF WEI25519_BASEPOINT.x + bF := by
  show feF WEI25519_G_Y ^ 2 = feF WEI25519_G_X ^ 3 + aF * feF WEI25519_G_X + bF
  rw [bF]
  ring

theorem basepoint_on_curve : onW WEI25519_BASEPOINT :=
  Or.inr (nonsingular_W basepoint_equation)

theorem basepoint_y_ne_zero : feF WEI25519_BASEPOINT.y ≠ 0 := by
  show feF WEI25519_G_Y ≠ 0
  rw [feF]
  intro hc
  rw [show (0 : ZMod p) = ((0 : ℕ) : ZMod p) from Nat.cast_zero.symm,
    ZMod.natCast_eq_natCast_iff'] at hc
  revert hc
  decide

theorem two_torsion_x : feF two_torsion.x = feF DELTA := rfl

theorem two_torsion_y : feF two_torsion.y = 0 := feF_zero

theorem two_torsion_ns :
    Wcurve.Nonsingular (feF two_torsion.x) (feF two_torsion.y) := by
  apply nonsingular_W
  rw [two_torsion_x, two_torsion_y, aF, bF_eq, feF, feF,
    ← Nat.cast_pow, ← Nat.cast_mul, ← Nat.cast_add, ← Nat.cast_add,
    show ((0 : ZMod p) ^ 2 : ZMod p) = ((0 : ℕ) : ZMod p) by norm_num,
    ZMod.natCast_eq_natCast_iff']
  decide

theorem two_torsion_on_curve : onW two_torsion := Or.inr two_torsion_ns

theorem two_torsion_not_ident : ¬(feF two_torsion.x = 0 ∧ feF two_torsion.y = 0) := by
  intro h
  exact feF_DELTA_ne_zero (two_torsion_x ▸ h.1)

/-- Claim C2, witness: the amended theorem applied to doubling the base
point, whose hypotheses hold concretely. -/
theorem C2_add_group_law_amended_witness :
    feF WEI25519_BASEPOINT.y ^ 2 =
      feF WEI25519_BASEPOINT.x ^ 3 + aF * feF WEI25519_BASEPOINT.x + bF ∧
    ¬(feF WEI25519_BASEPOINT.x = feF WEI25519_BASEPOINT.x ∧
        feF WEI25519_BASEPOINT.y = feF WEI25519_BASEPOINT.y ∧
        feF WEI25519_BASEPOINT.y = 0 ∧ feF WEI25519_BASEPOINT.x ≠ 0) ∧
    decodePair (add WEI25519_BASEPOINT WEI25519_BASEPOINT) =
      projPoint
        (toPoint WEI25519_BASEPOINT (onW_of_onCurve (Or.inr basepoint_equation)) +
         toPoint WEI25519_BASEPOINT (onW_of_onCurve (Or.inr basepoint_equation))) :=
  ⟨basepoint_equation, fun h => basepoint_y_ne_zero h.2.2.1,
    C2_add_group_law_amended WEI25519_BASEPOINT WEI25519_BASEPOINT
      (Or.inr basepoint_equation) (Or.inr basepoint_equation)
      (fun h => basepoint_y_ne_zero h.2.2.1)⟩

/-- Claim C2, counterexample: on the 2-torsion point (δ, 0) of Wei25519
(equal finite inputs with y = 0), the constant-time addition does not return
the mathematical group sum, which is the identity. -/
theorem C2_counterexample :
    decodePair (add two_torsion two_torsion) ≠
      projPoint (toPoint two_torsion two_torsion_on_curve +
        toPoint two_torsion two_torsion_on_curve) := by
  rw [toPoint_some two_torsion_on_curve two_torsion_not_ident]
  have hy : feF two_torsion.y =
      Wcurve.negY (feF two_torsion.x) (feF two_torsion.y) := by
    rw [negY_W, two_torsion_y, neg_zero]
  rw [WeierstrassCurve.Affine.Point.add_of_Y_eq rfl hy, projPoint_zero,
    decode_add_tangent two_torsion_not_ident two_torsion_not_ident rfl rfl]
  intro hc
  have h1 := congrArg Prod.fst hc
  simp only at h1
  rw [two_torsion_x, two_torsion_y] at h1
  simp only [add_zero, inv_zero, mul_zero, ne_eq, OfNat.ofNat_ne_zero,
    not_false_eq_true, zero_pow, zero_sub, mul_one] at h1
  have h2 : (2 : ZMod p) * feF DELTA = 0 := by linear_combination -h1
  rcases mul_eq_zero.mp h2 with h | h
  · exact two_ne_zero_F h
  · exact feF_DELTA_ne_zero h

/-! ### Identity laws, equality, contributory check, non-constant-time add -/

/-- Claim C6: for every point P (any coordinate byte arrays), P + O and
O + P equal P under point equality mod p, and double(O) = O. -/
theorem C6_identity_laws (P : WeierstrassPoint) :
    decodePair (add P identity) = decodePair P ∧
    decodePair (add identity P) = decodePair P ∧
    double identity = identity := by
  refine ⟨?_, ?_, rfl⟩
  · by_cases hP0 : feF P.x = 0 ∧ feF P.y = 0
    · rw [decode_add_inf_left hP0]
      show (feF identity.x, feF identity.y) = decodePair P
      rw [decodePair, hP0.1, hP0.2, show feF identity.x = 0 from feF_zero,
        show feF identity.y = 0 from feF_zero]
    · rw [decode_add_inf_right hP0 ⟨feF_zero, feF_zero⟩]
      rfl
  · rw [decode_add_inf_left ⟨feF_zero, feF_zero⟩]
    rfl

/-- Claim C7: was_contributory returns true exactly when the shared-secret
point does not decode to the identity encoding (0, 0). -/
theorem C7_was_contributory (S : WeierstrassPoint) :
    was_contributory S = true ↔ decodePair S ≠ ((0 : ZMod p), (0 : ZMod p)) := by
  have h : ct_eq S identity = true ↔ decodePair S = ((0 : ZMod p), 0) := by
    rw [ct_eq_iff, show feF identity.x = 0 from feF_zero,
      show feF identity.y = 0 from feF_zero, decodePair, Prod.mk.injEq]
  rw [was_contributory, is_identity]
  constructor
  · intro hw hc
    rw [h.mpr hc] at hw
    exact absurd hw (by decide)
  · intro hne
    rcases hbool : ct_eq S identity with _ | _
    · rfl
    · exact absurd (h.mp hbool) hne

/-- Claim C8: point equality (ct_eq, and the PartialEq instance defined from
it) holds exactly when both coordinates decode to equal field elements
mod p; in particular the coordinate bytes 18 and 2^256 - 1 (all 0xFF bytes)
give equal points. -/
theorem C8_point_equality :
    (∀ P Q : WeierstrassPoint, ct_eq P Q = true ↔
        feF P.x = feF Q.x ∧ feF P.y = feF Q.y) ∧
    (∀ P Q : WeierstrassPoint, eq_points P Q = ct_eq P Q) ∧
    ct_eq ⟨18, 18⟩ ⟨2 ^ 256 - 1, 2 ^ 256 - 1⟩ = true :=
  ⟨ct_eq_iff, fun _ _ => rfl, by decide⟩

/-- Claim C10: for every pair of coordinate points, the non-constant-time
addition agrees with the constant-time addition under point equality
mod p. -/
theorem C10_nct_add_equiv (P Q : WeierstrassPoint) :
    decodePair (add_not_constant_time P Q) = decodePair (add P Q) := by
  by_cases h1 : at_infinity P = true
  · rw [add_not_constant_time, if_pos h1, add_eq_left_inf h1]
    simp [decodePair, feF, fe_from_bytes_of_lt (fe_from_bytes_lt _)]
  · have h1f : at_infinity P = false := Bool.eq_false_iff.mpr h1
    by_cases h2 : at_infinity Q = true
    · rw [add_not_constant_time, if_neg h1, if_pos h2, add_eq_right_inf h1f h2]
      simp [decodePair, feF, fe_from_bytes_of_lt (fe_from_bytes_lt _)]
    · have h2f : at_infinity Q = false := Bool.eq_false_iff.mpr h2
      by_cases hx : x_ct_eq P Q = true
      · by_cases hy : y_ct_eq P Q = true
        · rw [add_not_constant_time, if_neg h1, if_neg h2, if_pos hx,
            if_pos hy, double]
          have hxn : fe_from_bytes P.x = fe_from_bytes Q.x := by
            rw [x_ct_eq, beq_iff_eq] at hx
            exact hx
          have hyn : fe_from_bytes P.y = fe_from_bytes Q.y := by
            rw [y_ct_eq, beq_iff_eq] at hy
            exact hy
          simp only [add, x_ct_eq, y_ct_eq, at_infinity, hxn, hyn]
        · have hyf : y_ct_eq P Q = false := Bool.eq_false_iff.mpr hy
          rw [add_not_constant_time, if_neg h1, if_neg h2, if_pos hx,
            if_neg hy, add_eq_vertical h1f h2f hx hyf]
          rfl
      · rw [add_not_constant_time, if_neg h1, if_neg h2, if_neg hx]
        have hxf : x_ct_eq P Q = false := Bool.eq_false_iff.mpr hx
        simp only [add, h1f, h2f, hxf, Bool.not_false, Bool.and_true,
          Bool.true_and, Bool.false_and, Bool.and_false, Bool.false_eq_true,
          Bool.true_eq_false, eq_self_iff_true, ite_true, ite_false]

/-! ### The birational map: claims C4 and C5 -/

theorem three_ne_zero_F : (3 : ZMod p) ≠ 0 := by
  have h3 : ((3 : ℕ) : ZMod p) ≠ ((0 : ℕ) : ZMod p) := by
    rw [Ne, ZMod.natCast_eq_natCast_iff']
    decide
  simpa using h3

/-- The source's DELTA byte constant decodes to the spec's δ = A_M / 3. -/
theorem feF_DELTA_eq : feF DELTA = 486662 * (3 : ZMod p)⁻¹ := by
  rw [eq_mul_inv_iff_mul_eq₀ three_ne_zero_F, feF,
    show (3 : ZMod p) = ((3 : ℕ) : ZMod p) by norm_num,
    show (486662 : ZMod p) = ((486662 : ℕ) : ZMod p) by norm_num,
    ← Nat.cast_mul, ZMod.natCast_eq_natCast_iff']
  decide

/-- Claim C4, counterexample: the little-endian bytes of p decode to the
field element 0, yet from_montgomery does not map them to the x = 0 branch
(it returns (δ, v)), and into_montgomery on x-bytes p does not return
(0, y) (it returns (p - δ, y)); neither output coordinate is even
congruent to the claimed one mod p. -/
theorem C4_counterexample :
    fe_from_bytes p = 0 ∧
    from_montgomery p 0 ≠ ⟨0, 0⟩ ∧ (from_montgomery p 0).x % p ≠ 0 ∧
    fe_from_bytes (⟨p, 0⟩ : WeierstrassPoint).x = 0 ∧
    into_montgomery ⟨p, 0⟩ ≠ (0, 0) ∧ (into_montgomery ⟨p, 0⟩).1 % p ≠ 0 := by
  decide

/-- Claim C4, amended: the zero test of both halves of the birational map is
the byte-level test for the all-zero array (not field-element decoding);
subject to that, the map adds respectively subtracts δ = A_M/3. -/
theorem C4_map_byte_level_zero_check (u v : ℕ) (P : WeierstrassPoint) :
    (u = 0 → from_montgomery u v = ⟨0, v⟩) ∧
    (u ≠ 0 → decodePair (from_montgomery u v) =
      (feF u + 486662 * (3 : ZMod p)⁻¹, feF v)) ∧
    (P.x = 0 → into_montgomery P = (P.x, P.y)) ∧
    (P.x ≠ 0 → (((into_montgomery P).1 : ℕ) : ZMod p) =
        feF P.x - 486662 * (3 : ZMod p)⁻¹ ∧ (into_montgomery P).2 = P.y) := by
  refine ⟨?_, ?_, ?_, ?_⟩
  · intro hu
    rw [from_montgomery, if_pos hu]
  · intro hu
    rw [from_montgomery, if_neg hu]
    show (feF (fe_add (fe_from_bytes u) (fe_from_bytes DELTA)), feF v) = _
    rw [← feF_DELTA_eq, feF, fe_from_bytes_fe_add, cast_fe_add]
    rfl
  · intro hx
    rw [into_montgomery, if_pos hx]
  · intro hx
    rw [into_montgomery, if_neg hx]
    exact ⟨by rw [← feF_DELTA_eq, cast_fe_sub, feF, feF], rfl⟩

/-- Claim C4, witness: the amended characterization applied at concrete
inputs on each branch. -/
theorem C4_map_byte_level_zero_check_witness :
    from_montgomery 0 7 = ⟨0, 7⟩ ∧
    decodePair (from_montgomery 9 7) =
      (feF 9 + 486662 * (3 : ZMod p)⁻¹, feF 7) ∧
    into_montgomery ⟨0, 7⟩ = (0, 7) ∧
    (((into_montgomery ⟨9, 7⟩).1 : ℕ) : ZMod p) =
      feF 9 - 486662 * (3 : ZMod p)⁻¹ :=
  ⟨(C4_map_byte_level_zero_check 0 7 ⟨0, 7⟩).1 rfl,
   (C4_map_byte_level_zero_check 9 7 ⟨9, 7⟩).2.1 (by decide),
   (C4_map_byte_level_zero_check 0 7 ⟨0, 7⟩).2.2.1 rfl,
   ((C4_map_byte_level_zero_check 9 7 ⟨9, 7⟩).2.2.2 (by decide)).1⟩

/-- Claim C5, counterexample: round-tripping u = p - δ (canonical bytes of
a nonzero field element) through from_montgomery then into_montgomery
yields the field element 0, not u. -/
theorem C5_counterexample :
    feF (into_montgomery (from_montgomery (p - DELTA) 7)).1 ≠
      feF (p - DELTA) := by
  have h1 : (into_montgomery (from_montgomery (p - DELTA) 7)).1 = 0 := by
    decide
  rw [h1, feF_zero]
  intro hc
  have hc2 : feF (p - DELTA) = 0 := hc.symm
  rw [feF, show (0 : ZMod p) = ((0 : ℕ) : ZMod p) from Nat.cast_zero.symm,
    ZMod.natCast_eq_natCast_iff'] at hc2
  revert hc2
  decide

/-- Claim C5, amended: the round trip preserves the coordinates as field
elements whenever the decoded u does not equal -δ mod p (u + δ nonzero);
the point at infinity encoding maps to itself in both directions. -/
theorem C5_roundtrip_amended (u v : ℕ)
    (h : fe_add (fe_from_bytes u) (fe_from_bytes DELTA) ≠ 0) :
    feF (into_montgomery (from_montgomery u v)).1 = feF u ∧
    (into_montgomery (from_montgomery u v)).2 = v ∧
    from_montgomery 0 0 = identity ∧ into_montgomery identity = (0, 0) := by
  refine ⟨?_, ?_, rfl, rfl⟩
  · by_cases hu : u = 0
    · subst hu
      rw [from_montgomery, if_pos rfl]
      show feF ((into_montgomery ⟨0, v⟩).1) = feF 0
      rw [into_montgomery, if_pos rfl]
    · rw [from_montgomery, if_neg hu]
      show feF ((into_montgomery ⟨fe_add (fe_from_bytes u) (fe_from_bytes DELTA), v⟩).1) = feF u
      rw [into_montgomery, if_neg h]
      show feF (fe_sub (fe_from_bytes (fe_add (fe_from_bytes u) (fe_from_bytes DELTA))) (fe_from_bytes DELTA)) = feF u
      rw [feF, fe_from_bytes_fe_sub, cast_fe_sub, fe_from_bytes_fe_add,
        cast_fe_add, add_sub_cancel_right]
      rfl
  · by_cases hu : u = 0
    · subst hu
      rw [from_montgomery, if_pos rfl, into_montgomery, if_pos rfl]
    · rw [from_montgomery, if_neg hu, into_montgomery, if_neg h]

/-- Claim C5, witness: the amended round trip at u = 9, v = 7. -/
theorem C5_roundtrip_amended_witness :
    feF (into_montgomery (from_montgomery 9 7)).1 = feF 9 ∧
    (into_montgomery (from_montgomery 9 7)).2 = 7 :=
  ⟨(C5_roundtrip_amended 9 7 (by decide)).1,
   (C5_roundtrip_amended 9 7 (by decide)).2.1⟩

/-! ### The scalar multiplication loop -/

theorem add_x_lt (P Q : WeierstrassPoint) : (add P Q).x < p := by
  simp only [add]
  split
  · exact p_pos
  · split
    · exact fe_from_bytes_lt _
    · split
      · exact fe_from_bytes_lt _
      · exact fe_sub_lt _ _

theorem add_y_lt (P Q : WeierstrassPoint) : (add P Q).y < p := by
  simp only [add]
  split
  · exact p_pos
  · split
    · exact fe_from_bytes_lt _
    · split
      · exact fe_from_bytes_lt _
      · exact fe_sub_lt _ _

theorem at_infinity_identity : at_infinity identity = true := by decide

theorem add_identity_left (Q : WeierstrassPoint) :
    add identity Q = ⟨fe_from_bytes Q.x, fe_from_bytes Q.y⟩ :=
  add_eq_left_inf at_infinity_identity

theorem add_acc_identity {acc : WeierstrassPoint} (hx : acc.x < p)
    (hy : acc.y < p) : add acc identity = acc := by
  obtain ⟨ax, ay⟩ := acc
  by_cases hinf : at_infinity ⟨ax, ay⟩ = true
  · obtain ⟨h1, h2⟩ := (at_infinity_iff _).mp hinf
    rw [feF_of_reduced hx] at h1
    rw [feF_of_reduced hy] at h2
    rw [show (0 : ZMod p) = ((0 : ℕ) : ZMod p) from Nat.cast_zero.symm] at h1 h2
    have hx0 : ax = 0 := (cast_eq_iff hx p_pos).mp h1
    have hy0 : ay = 0 := (cast_eq_iff hy p_pos).mp h2
    subst hx0
    subst hy0
    rw [add_eq_left_inf hinf]
    rfl
  · have hf : at_infinity (⟨ax, ay⟩ : WeierstrassPoint) = false :=
      Bool.eq_false_iff.mpr hinf
    rw [add_eq_right_inf hf at_infinity_identity, fe_from_bytes_of_lt hx,
      fe_from_bytes_of_lt hy]

theorem mulAux_zero_tail (bits : ℕ → ℕ) :
    ∀ n i acc q, (∀ j, i ≤ j → bits j = 0) → acc.x < p → acc.y < p →
      mulAux bits n i acc q = acc := by
  intro n
  induction n with
  | zero => intro i acc q _ _ _; rfl
  | succ n ih =>
      intro i acc q h hx hy
      rw [mulAux]
      have hsel : conditional_select identity q (bits i == 1) = identity := by
        rw [h i le_rfl]
        rfl
      rw [hsel, add_acc_identity hx hy]
      exact ih (i + 1) acc (double q) (fun j hj => h j (by omega)) hx hy

theorem scalar_bit_two_tail : ∀ j, 2 ≤ j → scalar_bit 2 j = 0 := by
  intro j hj
  have h4 : (4 : ℕ) ≤ 2 ^ j := by
    calc (4 : ℕ) = 2 ^ 2 := rfl
    _ ≤ 2 ^ j := Nat.pow_le_pow_right (by norm_num) hj
  rw [scalar_bit, Nat.div_eq_of_lt (by omega)]

theorem smul_two_torsion_eq :
    smul two_torsion (scalar_bit 2) = double two_torsion := by
  show mulAux (scalar_bit 2) (254 + 1) 0 identity two_torsion = _
  rw [mulAux]
  have hc0 : conditional_select identity two_torsion (scalar_bit 2 0 == 1) =
      identity := rfl
  have ha0 : add identity identity = identity := rfl
  rw [hc0, ha0]
  show mulAux (scalar_bit 2) (253 + 1) 1 identity (double two_torsion) = _
  rw [mulAux]
  have hdx : (double two_torsion).x < p := add_x_lt _ _
  have hdy : (double two_torsion).y < p := add_y_lt _ _
  have hc1 : conditional_select identity (double two_torsion)
      (scalar_bit 2 1 == 1) =
      ⟨fe_from_bytes (double two_torsion).x,
       fe_from_bytes (double two_torsion).y⟩ := rfl
  have hred : add identity (conditional_select identity (double two_torsion)
      (scalar_bit 2 1 == 1)) = double two_torsion := by
    rw [hc1, add_identity_left]
    show (⟨fe_from_bytes (fe_from_bytes (double two_torsion).x),
      fe_from_bytes (fe_from_bytes (double two_torsion).y)⟩ :
        WeierstrassPoint) = _
    rw [fe_from_bytes_of_lt (fe_from_bytes_lt _),
      fe_from_bytes_of_lt (fe_from_bytes_lt _), fe_from_bytes_of_lt hdx,
      fe_from_bytes_of_lt hdy]
  rw [hred]
  exact mulAux_zero_tail (scalar_bit 2) 253 2 (double two_torsion)
    (double (double two_torsion)) (fun j hj => scalar_bit_two_tail j hj)
    hdx hdy

theorem decode_double_two_torsion :
    decodePair (double two_torsion) = (-(2 * feF DELTA), 0) := by
  show decodePair (add two_torsion two_torsion) = _
  rw [decode_add_tangent two_torsion_not_ident two_torsion_not_ident rfl rfl,
    two_torsion_x, two_torsion_y]
  simp only [add_zero, inv_zero, mul_zero, ne_eq, OfNat.ofNat_ne_zero,
    not_false_eq_true, zero_pow, zero_sub, zero_mul, Prod.mk.injEq]
  exact ⟨by ring, by ring⟩

theorem neg_two_deltaF_ne_zero : (-(2 * feF DELTA) : ZMod p) ≠ 0 := by
  rw [neg_ne_zero]
  exact mul_ne_zero two_ne_zero_F feF_DELTA_ne_zero

/-- Claim C3: on the 2-torsion point (δ, 0) with the scalar 2 (bit array
`scalar_bit 2`, which is 0/1-valued, has bit 255 clear and sums to 2), the
group-law value of 2 P is the identity, but the scalar multiplication
returns the point (-2δ, 0), which is not the identity. -/
theorem C3_two_torsion_divergence :
    (2 : ℕ) • WeierstrassCurve.Affine.Point.some two_torsion_ns = 0 ∧
    decodePair (smul two_torsion (scalar_bit 2)) = (-(2 * feF DELTA), 0) ∧
    (-(2 * feF DELTA) : ZMod p) ≠ 0 := by
  refine ⟨?_, ?_, neg_two_deltaF_ne_zero⟩
  · rw [two_nsmul]
    exact WeierstrassCurve.Affine.Point.add_self_of_Y_eq
      (by rw [negY_W, two_torsion_y, neg_zero])
  · rw [smul_two_torsion_eq, decode_double_two_torsion]

/-! ### The RFC 7748 bridge: claim C1 -/

theorem cast_DELTA_ne_zero : ((DELTA : ℕ) : ZMod p) ≠ 0 := by
  have h := feF_DELTA_ne_zero
  rwa [feF_of_reduced (by decide : DELTA < p)] at h

theorem wp_ext {P Q : WeierstrassPoint} (h1 : P.x = Q.x) (h2 : P.y = Q.y) :
    P = Q := by
  obtain ⟨a, b⟩ := P
  obtain ⟨c, d⟩ := Q
  simp only at h1 h2
  rw [h1, h2]

theorem double_y0 {x : ℕ} (hx : x < p) (hx0 : ((x : ℕ) : ZMod p) ≠ 0) :
    ∃ x2 : ℕ, double (⟨x, 0⟩ : WeierstrassPoint) = ⟨x2, 0⟩ ∧ x2 < p ∧
      ((x2 : ℕ) : ZMod p) = -2 * ((x : ℕ) : ZMod p) := by
  have hni : ¬(feF (⟨x, 0⟩ : WeierstrassPoint).x = 0 ∧
      feF (⟨x, 0⟩ : WeierstrassPoint).y = 0) := by
    intro h
    apply hx0
    have h1 := h.1
    rwa [feF_of_reduced hx] at h1
  have hdec := decode_add_tangent (P := ⟨x, 0⟩) (Q := ⟨x, 0⟩) hni hni rfl rfl
  rw [show feF (⟨x, 0⟩ : WeierstrassPoint).y = 0 from feF_zero,
    feF_of_reduced hx] at hdec
  simp only [add_zero, inv_zero, mul_zero, ne_eq, OfNat.ofNat_ne_zero,
    not_false_eq_true, zero_pow, zero_sub, zero_mul, sub_zero] at hdec
  have h1 : feF (add (⟨x, 0⟩ : WeierstrassPoint) ⟨x, 0⟩).x =
      -((x : ℕ) : ZMod p) - ((x : ℕ) : ZMod p) := congrArg Prod.fst hdec
  have h2 : feF (add (⟨x, 0⟩ : WeierstrassPoint) ⟨x, 0⟩).y = 0 :=
    congrArg Prod.snd hdec
  have hylt : (add (⟨x, 0⟩ : WeierstrassPoint) ⟨x, 0⟩).y < p := add_y_lt _ _
  have hxlt : (add (⟨x, 0⟩ : WeierstrassPoint) ⟨x, 0⟩).x < p := add_x_lt _ _
  have hyv : (add (⟨x, 0⟩ : WeierstrassPoint) ⟨x, 0⟩).y = 0 := by
    rw [feF_of_reduced hylt,
      show (0 : ZMod p) = ((0 : ℕ) : ZMod p) from Nat.cast_zero.symm] at h2
    exact (cast_eq_iff hylt p_pos).mp h2
  refine ⟨(add (⟨x, 0⟩ : WeierstrassPoint) ⟨x, 0⟩).x, wp_ext rfl hyv, hxlt, ?_⟩
  rw [show (((add (⟨x, 0⟩ : WeierstrassPoint) ⟨x, 0⟩).x : ℕ) : ZMod p) =
    feF (add (⟨x, 0⟩ : WeierstrassPoint) ⟨x, 0⟩).x
    from (feF_of_reduced hxlt).symm, h1]
  ring

theorem iter_double_y0 :
    ∀ (m x : ℕ), x < p → ((x : ℕ) : ZMod p) ≠ 0 →
      ∃ xm : ℕ, iter_double m (⟨x, 0⟩ : WeierstrassPoint) = ⟨xm, 0⟩ ∧
        xm < p ∧ ((xm : ℕ) : ZMod p) = (-2) ^ m * ((x : ℕ) : ZMod p) := by
  intro m
  induction m with
  | zero =>
      intro x hx hx0
      exact ⟨x, rfl, hx, by norm_num [iter_double]⟩
  | succ m ih =>
      intro x hx hx0
      obtain ⟨x2, hd, hx2lt, hx2cast⟩ := double_y0 hx hx0
      have hnz : ((x2 : ℕ) : ZMod p) ≠ 0 := by
        rw [hx2cast]
        exact mul_ne_zero (neg_ne_zero.mpr two_ne_zero_F) hx0
      obtain ⟨xm, hiter, hxmlt, hxmcast⟩ := ih x2 hx2lt hnz
      refine ⟨xm, ?_, hxmlt, ?_⟩
      · rw [iter_double, hd, hiter]
      · rw [hxmcast, hx2cast]
        ring

/-- The running point after 254 doublings of the 2-torsion point, as used by
the scalar multiplication at the clamped zero scalar. -/
theorem q254_facts :
    ∃ xm : ℕ, iter_double 254 two_torsion = ⟨xm, 0⟩ ∧ xm < p ∧
      ((xm : ℕ) : ZMod p) = (2 : ZMod p) ^ 254 * ((DELTA : ℕ) : ZMod p) := by
  obtain ⟨xm, h1, h2, h3⟩ :=
    iter_double_y0 254 DELTA (by decide) cast_DELTA_ne_zero
  exact ⟨xm, h1, h2, by rw [h3, Even.neg_pow (by decide : Even 254)]⟩

theorem scalar_bit_clamp0_lt : ∀ j, j < 254 → scalar_bit (2 ^ 254) j = 0 := by
  intro j hj
  rw [scalar_bit, Nat.pow_div (by omega) (by norm_num),
    show 254 - j = 254 - j - 1 + 1 by omega, pow_succ, Nat.mul_mod_left]

theorem scalar_bit_clamp0_self : scalar_bit (2 ^ 254) 254 = 1 := by decide

theorem mulAux_id_leading (bits : ℕ → ℕ) :
    ∀ (m n i : ℕ) (q : WeierstrassPoint), m ≤ n →
      (∀ j, i ≤ j → j < i + m → bits j = 0) →
      mulAux bits n i identity q =
        mulAux bits (n - m) (i + m) identity (iter_double m q) := by
  intro m
  induction m with
  | zero => intro n i q _ _; rw [iter_double, Nat.sub_zero, Nat.add_zero]
  | succ m ih =>
      intro n i q hmn h
      obtain ⟨k, rfl⟩ : ∃ k, n = k + 1 := ⟨n - 1, by omega⟩
      rw [mulAux]
      have hsel : conditional_select identity q (bits i == 1) = identity := by
        rw [h i le_rfl (by omega)]
        rfl
      have ha : add identity identity = identity := rfl
      rw [hsel, ha, ih (k) (i + 1) (double q) (by omega)
        (fun j hj1 hj2 => h j (by omega) (by omega)),
        show k + 1 - (m + 1) = k - m from by omega,
        show i + (m + 1) = i + 1 + m from by omega,
        show iter_double (m + 1) q = iter_double m (double q) from rfl]

theorem from_montgomery_p_zero : from_montgomery p 0 = two_torsion := by
  decide

theorem smul_clamp0_two_torsion :
    smul two_torsion (scalar_bit (clamp_scalar 0)) =
      iter_double 254 two_torsion := by
  obtain ⟨xm, hq254, hxmlt, hxmcast⟩ := q254_facts
  rw [show clamp_scalar 0 = 2 ^ 254 from by decide]
  show mulAux (scalar_bit (2 ^ 254)) 255 0 identity two_torsion = _
  rw [mulAux_id_leading (scalar_bit (2 ^ 254)) 254 255 0 two_torsion
    (by omega) (fun j hj1 hj2 => scalar_bit_clamp0_lt j (by omega))]
  show mulAux _ (0 + 1) 254 identity (iter_double 254 two_torsion) = _
  rw [hq254, mulAux, mulAux, scalar_bit_clamp0_self]
  have hc : conditional_select identity (⟨xm, 0⟩ : WeierstrassPoint)
      ((1 : ℕ) == 1) =
      ⟨fe_from_bytes xm, fe_from_bytes 0⟩ := rfl
  rw [hc, add_identity_left]
  show (⟨fe_from_bytes (fe_from_bytes xm),
    fe_from_bytes (fe_from_bytes 0)⟩ : WeierstrassPoint) = _
  refine wp_ext ?_ rfl
  show fe_from_bytes (fe_from_bytes xm) = xm
  rw [fe_from_bytes_of_lt (fe_from_bytes_lt xm), fe_from_bytes_of_lt hxmlt]

theorem ladderAux_zero (k x1 : ℕ) :
    ∀ t sw, ∃ sw2, ladderAux k x1 t (0, 0, 0, 0, sw) = (0, 0, 0, 0, sw2) := by
  intro t
  induction t with
  | zero => intro sw; exact ⟨sw, rfl⟩
  | succ t ih =>
      intro sw
      rw [ladderAux]
      simp only [cswap, ite_self, fe_add, fe_sub, fe_mul, fe_square,
        Nat.zero_mod, Nat.sub_zero, Nat.zero_add, Nat.add_zero, Nat.mod_self,
        Nat.mul_zero, Nat.zero_mul, Nat.mul_one, Nat.one_mul]
      exact ih _

theorem x25519_p_bytes_zero : x25519 0 p = 0 := by
  show montLadder (clamp_scalar 0) p = 0
  rw [show clamp_scalar 0 = 2 ^ 254 from by decide]
  have step1 : ladderAux (2 ^ 254) 0 255 (1, 0, 0, 1, false) =
      ladderAux (2 ^ 254) 0 254 (1, 0, 0, 0, true) := by
    rw [show (255 : ℕ) = 254 + 1 from rfl, ladderAux]
    congr 1
  have step2 : ladderAux (2 ^ 254) 0 254 (1, 0, 0, 0, true) =
      ladderAux (2 ^ 254) 0 253 (0, 0, 0, 0, false) := by
    rw [show (254 : ℕ) = 253 + 1 from rfl, ladderAux]
    congr 1
  obtain ⟨swf, hz⟩ := ladderAux_zero (2 ^ 254) 0 253 false
  simp only [montLadder, show fe_from_bytes p = 0 from by decide, step1,
    step2, hz]
  simp [cswap, fe_mul]

theorem mont_on_curve_p_bytes : mont_on_curve p 0 := by
  rw [mont_on_curve, show fe_from_bytes p = 0 from by decide,
    fe_from_bytes_zero]
  norm_num

theorem pow254_sub_one_ne_zero : ((2 : ZMod p) ^ 254 - 1) ≠ 0 := by
  have hcast : ((2 : ZMod p) ^ 254 - 1) = ((2 ^ 254 - 1 : ℕ) : ZMod p) := by
    push_cast [Nat.cast_sub (by norm_num : (1 : ℕ) ≤ 2 ^ 254)]
    ring
  rw [hcast, show (0 : ZMod p) = ((0 : ℕ) : ZMod p) from Nat.cast_zero.symm,
    Ne, ZMod.natCast_eq_natCast_iff']
  decide

/-- Claim C1: on the input k = 0 (all-zero scalar bytes), u = the
little-endian bytes of p (an on-curve u: it decodes to 0, matching v = 0),
the reference X25519 ladder returns 0, but the first component of
w25519(k, u, v) is the nonzero coordinate (2^254 - 1) δ: the two disagree.
The root cause is the byte-level zero test of from_montgomery, which maps
this non-canonical encoding of u = 0 to the 2-torsion point (δ, 0) instead
of the identity, after which the unified addition's 2-torsion defect takes
over. -/
theorem C1_w25519_x25519_divergence :
    x25519 0 p = 0 ∧ mont_on_curve p 0 ∧
    (((w25519 0 p 0).1 : ℕ) : ZMod p) =
      ((2 : ZMod p) ^ 254 - 1) * ((DELTA : ℕ) : ZMod p) ∧
    (w25519 0 p 0).1 ≠ x25519 0 p := by
  obtain ⟨xm, hq254, hxmlt, hxmcast⟩ := q254_facts
  have hq : smul (from_montgomery p 0) (scalar_bit (clamp_scalar 0)) =
      (⟨xm, 0⟩ : WeierstrassPoint) := by
    rw [from_montgomery_p_zero, smul_clamp0_two_torsion, hq254]
  have hxm_ne : xm ≠ 0 := by
    intro hc
    rw [hc, Nat.cast_zero] at hxmcast
    exact (mul_ne_zero (pow_ne_zero 254 two_ne_zero_F) cast_DELTA_ne_zero)
      hxmcast.symm
  have hw : w25519 0 p 0 =
      (fe_sub (fe_from_bytes xm) (fe_from_bytes DELTA), 0) := by
    rw [w25519, hq, into_montgomery, if_neg hxm_ne]
  have hwx : (((w25519 0 p 0).1 : ℕ) : ZMod p) =
      ((2 : ZMod p) ^ 254 - 1) * ((DELTA : ℕ) : ZMod p) := by
    rw [hw]
    show ((fe_sub (fe_from_bytes xm) (fe_from_bytes DELTA) : ℕ) : ZMod p) = _
    rw [cast_fe_sub, fe_from_bytes_of_lt hxmlt,
      fe_from_bytes_of_lt (by decide : DELTA < p), hxmcast]
    ring
  refine ⟨x25519_p_bytes_zero, mont_on_curve_p_bytes, hwx, ?_⟩
  rw [x25519_p_bytes_zero]
  intro hc
  rw [hc, Nat.cast_zero] at hwx
  exact mul_ne_zero pow254_sub_one_ne_zero cast_DELTA_ne_zero hwx.symm

end W25519
